import Mathlib

/-!
Verification of the readdiriter repository (Go).

This file gives a shallow embedding of the two core pieces of the
repository and proves the specification claims about them:

* `unixdirents.direntsInBuf` / `unixdirents.Dirents`
  (src/unixdirents/dirents.go): the raw directory-entry buffer decoder
  and its read/decode/filter driver loop.
* `readdiriter.NewReadDirIter` in its two revisions (src/iter.go and the
  older revision in src/unnamed/part_002).

Bytes are modelled as natural numbers, buffers as `List Nat`.  A Go
panic (out-of-range slice index) is modelled by a `false` second
component of the decoder result / an `Option` read returning `none`.
-/

/-! ### Fixed layout constants

The offsets and sizes of `unix.Dirent` fields on linux/amd64, the values
of `unsafe.Offsetof` / `unsafe.Sizeof` used in dirents.go lines 86-95:
`Ino uint64` at offset 0, `Off int64` at offset 8, `Reclen uint16` at
offset 16, `Type uint8` at offset 18, `Name [256]int8` at offset 19. -/

def inoOff : Nat := 0

def reclenOff : Nat := 16

def typeOff : Nat := 18

def nameOff : Nat := 19

def inoSize : Nat := 8

def reclenSize : Nat := 2

def typeSize : Nat := 1

/-- Byte value of the ASCII dot, used by the `"."` / `".."` name filter. -/
def dotByte : Nat := 46

/-- Little-endian (the native endianness of linux/amd64) 2-byte read at
offset `off`, modelling `binary.NativeEndian.Uint16(buf[off:])`.  The
single call site in dirents.go is guarded by the loop condition
`len(buf) >= reclenOff+reclenSize`, so the `getD` defaults are never
exercised there. -/
def readU16 (b : List Nat) (off : Nat) : Nat :=
  b.getD off 0 + 256 * b.getD (off + 1) 0

/-- Little-endian 8-byte value at offset `off` of `b`, assuming the
bytes are present. -/
def readU64D (b : List Nat) (off : Nat) : Nat :=
  b.getD off 0 + 256 * b.getD (off + 1) 0 + 256 ^ 2 * b.getD (off + 2) 0 +
    256 ^ 3 * b.getD (off + 3) 0 + 256 ^ 4 * b.getD (off + 4) 0 +
    256 ^ 5 * b.getD (off + 5) 0 + 256 ^ 6 * b.getD (off + 6) 0 +
    256 ^ 7 * b.getD (off + 7) 0

/-- Fallible 8-byte read, modelling `binary.NativeEndian.Uint64(b[off:])`:
Go performs the bounds check `_ = b[7]` on the sliced argument and
panics (`none`) when fewer than 8 bytes are available. -/
def readU64? (b : List Nat) (off : Nat) : Option Nat :=
  if off + 8 ≤ b.length then some (readU64D b off) else none

/-- Truncation of a name at the first NUL byte, modelling
`bytes.IndexByte(name, 0)` followed by `name = name[:i]` (dirents.go
lines 121-123): everything before the first zero byte, the whole list
when no zero byte occurs. -/
def truncAtNul : List Nat → List Nat
  | [] => []
  | b :: bs => if b = 0 then [] else b :: truncAtNul bs

/-- Model of the Go struct `DirentInfo` (dirents.go lines 37-50). -/
structure DirentInfo where
  ino : Nat
  dtype : Nat
  name : List Nat
deriving DecidableEq

/-- Outcome of processing one sliced record. -/
inductive RecStep where
  | fault
  | skip
  | emit (e : DirentInfo)
deriving DecidableEq

/-- Per-record body of the scan loop (dirents.go lines 115-134), applied
to `rec := buf[:reclen]`: read the inode (8 bytes at `inoOff`; Go panics
when the record is shorter than 8 bytes), skip the record when
`ino == 0`, read the type tag `rec[typeOff]` (Go panics when the record
is at most `typeOff` bytes long), take the name as the rest of the
record from `nameOff` truncated at the first NUL, and skip names equal
to `"."` or `".."`. -/
def decodeRecord (record : List Nat) : RecStep :=
  match readU64? record inoOff with
  | none => RecStep.fault
  | some ino =>
    if ino = 0 then RecStep.skip
    else
      match record[typeOff]? with
      | none => RecStep.fault
      | some dType =>
        if truncAtNul (record.drop nameOff) = [dotByte] ∨
            truncAtNul (record.drop nameOff) = [dotByte, dotByte] then RecStep.skip
        else RecStep.emit { ino := ino, dtype := dType, name := truncAtNul (record.drop nameOff) }

/-- Scan loop of `direntsInBuf` (dirents.go lines 107-138), with a fuel
argument for structural recursion; the wrapper `direntsInBuf` passes
`buf.length`, which always suffices because every iteration consumes at
least one byte (`direntsLoop_congr` below proves fuel irrelevance).
The loop runs while `len(buf) >= reclenOff+reclenSize`, reads `reclen`,
stops silently when `reclen == 0 || reclen > len(buf)`, and otherwise
processes `buf[:reclen]` and continues on `buf[reclen:]`.  The boolean
component is `true` for a normal return and `false` when Go would panic
on a record too short for its fixed-offset field reads. -/
def direntsLoop : Nat → List Nat → List DirentInfo × Bool
  | 0, _ => ([], true)
  | fuel + 1, buf =>
    if buf.length < reclenOff + reclenSize then ([], true)
    else if readU16 buf reclenOff = 0 ∨ buf.length < readU16 buf reclenOff then ([], true)
    else
      match decodeRecord (buf.take (readU16 buf reclenOff)) with
      | RecStep.fault => ([], false)
      | RecStep.skip => direntsLoop fuel (buf.drop (readU16 buf reclenOff))
      | RecStep.emit e =>
        (e :: (direntsLoop fuel (buf.drop (readU16 buf reclenOff))).1,
          (direntsLoop fuel (buf.drop (readU16 buf reclenOff))).2)

/-- Model of `direntsInBuf(buf)` (dirents.go lines 81-140): the list of
entries it yields, in yield order, paired with `true` for a normal
return and `false` when the scan hits a record on which Go panics. -/
def direntsInBuf (buf : List Nat) : List DirentInfo × Bool :=
  direntsLoop buf.length buf

/-- Modelled from the spec: the reference per-record decode of claim C1
(spec section 4.2 steps 4-5), with no filtering: the inode is the fixed
8-byte native-endian integer at the inode offset, the type tag the fixed
1-byte field at the type offset passed through unchanged, and the name
the record bytes from the fixed name offset truncated at the first NUL
byte. -/
def specDecodeRecord (record : List Nat) : DirentInfo :=
  { ino := readU64D record inoOff
    dtype := record.getD typeOff 0
    name := truncAtNul (record.drop nameOff) }

/-- Modelled from the spec: the reference scan of claim C1 (spec section
4.2 steps 1-3): starting at cursor 0, read `reclen` as the fixed 2-byte
native-endian integer at its fixed offset, stop at a fragment too short
to hold it or when `reclen == 0` or `reclen` exceeds the remaining
bytes, and otherwise decode the next `reclen` bytes as one record and
advance by exactly `reclen`; records appear in scan order. -/
def specRefLoop : Nat → List Nat → List DirentInfo
  | 0, _ => []
  | fuel + 1, buf =>
    if buf.length < reclenOff + reclenSize then []
    else if readU16 buf reclenOff = 0 ∨ buf.length < readU16 buf reclenOff then []
    else
      specDecodeRecord (buf.take (readU16 buf reclenOff)) ::
        specRefLoop fuel (buf.drop (readU16 buf reclenOff))

/-- Reference decode of a whole segment (claim C1). -/
def specRefDecode (buf : List Nat) : List DirentInfo :=
  specRefLoop buf.length buf

/-- Record filter of the Go code (dirents.go lines 116 and 126): a
decoded record survives when its inode is nonzero and its name is
neither `"."` nor `".."`. -/
def survivesFilter (e : DirentInfo) : Bool :=
  e.ino != 0 && e.name != [dotByte] && e.name != [dotByte, dotByte]

/-- Well-formedness of a segment: every record accepted by the scan
(`reclen` nonzero and within the remainder) is at least `nameOff` bytes
long, so all its fixed-offset field reads are in bounds. -/
def wfLoop : Nat → List Nat → Bool
  | 0, _ => true
  | fuel + 1, buf =>
    if buf.length < reclenOff + reclenSize then true
    else if readU16 buf reclenOff = 0 ∨ buf.length < readU16 buf reclenOff then true
    else
      decide (nameOff ≤ readU16 buf reclenOff) &&
        wfLoop fuel (buf.drop (readU16 buf reclenOff))

/-- Well-formedness of a whole segment. -/
def wfSegment (buf : List Nat) : Bool :=
  wfLoop buf.length buf

/-- Concrete segment: one 20-byte record, inode 7, type 8 (regular
file), name a single byte 102. -/
def bufOneFile : List Nat :=
  [7, 0, 0, 0, 0, 0, 0, 0, 0, 0, 0, 0, 0, 0, 0, 0, 20, 0, 8, 102]

/-- Concrete segment: one 20-byte record, inode 1, type 8, name a single
dot. -/
def bufDotName : List Nat :=
  [1, 0, 0, 0, 0, 0, 0, 0, 0, 0, 0, 0, 0, 0, 0, 0, 20, 0, 8, 46]

/-- Concrete segment: an 18-byte record whose declared length 18 is
positive and within the segment, yet too short for the type-tag read at
offset 18. -/
def bufShortRec : List Nat :=
  [1, 0, 0, 0, 0, 0, 0, 0, 0, 0, 0, 0, 0, 0, 0, 0, 18, 0]

/-- Concrete segment: 18 bytes with a zero record-length field. -/
def bufZeroReclen : List Nat :=
  [1, 0, 0, 0, 0, 0, 0, 0, 0, 0, 0, 0, 0, 0, 0, 0, 0, 0]

/-- Outcome of one `unix.ReadDirent(fd, buf)` call: either the filled
buffer content (its length is the returned `n`; an empty list is
`n == 0`, end of directory) or a read error, modelled as a numeric
code. -/
inductive ReadResult where
  | ok (content : List Nat)
  | fail (e : Nat)
deriving DecidableEq

/-- Element of the yielded sequence of `Dirents`: an entry yielded as
`(de, nil)` or an error yielded as `(DirentInfo{}, err)`. -/
inductive Event where
  | entry (de : DirentInfo)
  | failure (e : Nat)
deriving DecidableEq

/-- Inner yield loop `for de := range direntsInBuf(buf[:n])` of
`Dirents` (dirents.go lines 69-73), against a consumer that will pull
`budget` more entries (`none`: the consumer never stops).  Each entry is
delivered by one `yield` call; the call delivering the last entry the
consumer pulls returns `false`.  Result: the delivered events, the
remaining budget, and the value of the last `yield` (whether the driver
may continue). -/
def driveEntries : List DirentInfo → Option Nat → List Event × Option Nat × Bool
  | [], b => ([], b, true)
  | _ :: _, some 0 => ([], some 0, false)
  | e :: _, some 1 => ([Event.entry e], some 0, false)
  | e :: es, some (b + 2) =>
    (Event.entry e :: (driveEntries es (some (b + 1))).1,
      (driveEntries es (some (b + 1))).2)
  | e :: es, none =>
    (Event.entry e :: (driveEntries es none).1, (driveEntries es none).2)

/-- Model of the driver `Dirents(fd, buf)` (dirents.go lines 57-76).
The kernel is abstracted as the list of successive `ReadDirent`
outcomes; the consumer as a pull budget.  Returns the sequence of
yielded events and the number of `ReadDirent` calls issued.  The loop:
read; on error yield it and return; on `n == 0` return; otherwise yield
the entries of `direntsInBuf(buf[:n])` (stopping when the consumer
stops, and stopping with no further reads when the decode faults) and
read again. -/
def Dirents : List ReadResult → Option Nat → List Event × Nat
  | [], _ => ([], 0)
  | ReadResult.fail e :: _, _ => ([Event.failure e], 1)
  | ReadResult.ok content :: rs, budget =>
    if content.length = 0 then ([], 1)
    else
      if ((driveEntries (direntsInBuf content).1 budget).2.2 &&
          (direntsInBuf content).2) = true then
        ((driveEntries (direntsInBuf content).1 budget).1 ++
            (Dirents rs (driveEntries (direntsInBuf content).1 budget).2.1).1,
          1 + (Dirents rs (driveEntries (direntsInBuf content).1 budget).2.1).2)
      else ((driveEntries (direntsInBuf content).1 budget).1, 1)

/-- One read outcome is a good mid-stream segment: a successful read of
at least one byte whose content decodes without fault. -/
def goodSeg : ReadResult → Bool
  | ReadResult.ok c => !c.isEmpty && (direntsInBuf c).2
  | ReadResult.fail _ => false

/-- Entries a read outcome contributes to the stream. -/
def segEntries : ReadResult → List DirentInfo
  | ReadResult.ok c => (direntsInBuf c).1
  | ReadResult.fail _ => []

/-- Concatenated entries of a list of read outcomes. -/
def allEntries : List ReadResult → List DirentInfo
  | [] => []
  | r :: rs => segEntries r ++ allEntries rs

/-- Entry events of a list of read outcomes. -/
def segEvents (rs : List ReadResult) : List Event :=
  (allEntries rs).map Event.entry

/-- Number of reads needed to produce `k` entries from the stream of
read outcomes `rs` (meaningful when `rs` holds at least `k` entries). -/
def readsNeeded : Nat → List ReadResult → Nat
  | _, [] => 0
  | k, r :: rs =>
    if k ≤ (segEntries r).length then 1
    else 1 + readsNeeded (k - (segEntries r).length) rs

/-- Layout-checked decoder entry point, modelling dirents.go lines
86-105: the decoder obtains the field sizes from `unsafe.Sizeof` (here
passed as parameters), asserts them against the hardcoded expectations
8/2/1 before the scan loop, and panics (`none`) on any mismatch, so that
nothing is decoded. -/
def direntsInBufChecked (inoSz reclenSz typeSz : Nat) (buf : List Nat) :
    Option (List DirentInfo × Bool) :=
  if inoSz = 8 then
    if reclenSz = 2 then
      if typeSz = 1 then some (direntsInBuf buf) else none
    else none
  else none

/-- Designated error value modelling `io.EOF` for the `NewReadDirIter`
models. -/
def eofErr : Nat := 0

/-- Loop of `NewReadDirIter` of src/iter.go (lines 26-44), run when
`n > 0`: read a batch; a non-EOF error is yielded (its batch discarded)
and the sequence ends; an EOF response has its batch yielded and ends
the sequence (`seenEOF`); otherwise the batch is yielded and the loop
reads again. -/
def readDirLoop : List (List Nat × Option Nat) → List (Option Nat × Option Nat)
  | [] => []
  | (de, some err) :: _ =>
    if err = eofErr then de.map (fun e => (some e, none))
    else [(none, some err)]
  | (de, none) :: rest =>
    (de.map fun e => (some e, none)) ++ readDirLoop rest

/-- Model of `NewReadDirIter(file, n)` of src/iter.go (current
revision, lines 10-46).  The stateful `file.ReadDir(n)` calls are
abstracted as the list of successive responses `(entries, optional
error)`; entries are opaque (`Nat`).  Output elements are
`(some entry, none)` for a yielded entry and `(none, some err)` for a
yielded error.  Per the source: for `n <= 0` it issues a single
`ReadDir` call, yields any error (EOF included) and otherwise yields
the single batch; for `n > 0` it runs `readDirLoop`. -/
def NewReadDirIter (n : Int) (rs : List (List Nat × Option Nat)) :
    List (Option Nat × Option Nat) :=
  if n ≤ 0 then
    match rs with
    | [] => []
    | (_, some err) :: _ => [(none, some err)]
    | (de, none) :: _ => de.map (fun e => (some e, none))
  else readDirLoop rs

/-- Model of the older `NewReadDirIter` revision
(src/unnamed/part_002 lines 18-40): a single loop for every `n`: a
non-EOF error is yielded (its batch discarded) and the sequence ends;
an EOF response has its batch yielded and ends the sequence; otherwise
the batch is yielded and the loop continues unless `n == 0` and the
batch was empty. -/
def NewReadDirIterOld (n : Int) : List (List Nat × Option Nat) → List (Option Nat × Option Nat)
  | [] => []
  | (de, some err) :: _ =>
    if err = eofErr then de.map (fun e => (some e, none))
    else [(none, some err)]
  | (de, none) :: rest =>
    (de.map fun e => (some e, none)) ++
      (if n = 0 ∧ de = [] then [] else NewReadDirIterOld n rest)

example : direntsInBuf bufOneFile = ([⟨7, 8, [102]⟩], true) := by decide
example : direntsInBuf bufDotName = ([], true) := by decide
example : specRefDecode bufDotName = [⟨1, 8, [46]⟩] := by decide
example : direntsInBuf bufShortRec = ([], false) := by decide
example : direntsInBuf bufZeroReclen = ([], true) := by decide
example : wfSegment bufOneFile = true := by decide
example : wfSegment bufShortRec = false := by decide
example : Dirents [ReadResult.ok bufOneFile, ReadResult.ok []] none =
    ([Event.entry ⟨7, 8, [102]⟩], 2) := by decide
example : Dirents [ReadResult.ok bufOneFile, ReadResult.fail 5] none =
    ([Event.entry ⟨7, 8, [102]⟩, Event.failure 5], 2) := by decide
example : Dirents [ReadResult.ok bufOneFile, ReadResult.ok bufOneFile, ReadResult.ok []]
    (some 1) = ([Event.entry ⟨7, 8, [102]⟩], 1) := by decide
example : NewReadDirIter 0 [([], some eofErr)] = [(none, some eofErr)] := by decide
example : NewReadDirIterOld 0 [([], some eofErr)] = [] := by decide
example : NewReadDirIter 0 [([5], none), ([6], none)] = [(some 5, none)] := by decide
example : NewReadDirIterOld 0 [([5], none), ([6], none)] =
    [(some 5, none), (some 6, none)] := by decide
example : NewReadDirIter 1 [([3], none), ([], some eofErr)] = [(some 3, none)] := by decide
example : NewReadDirIterOld 1 [([3], none), ([], some eofErr)] = [(some 3, none)] := by decide

/-! ### Lemmas about the record decoder -/

theorem truncAtNul_no_nul : ∀ (l : List Nat), ∀ b ∈ truncAtNul l, b ≠ 0 := by
  intro l
  induction l with
  | nil => intro b hb; simp [truncAtNul] at hb
  | cons x xs ih =>
    intro b hb
    by_cases hx : x = 0
    · simp [truncAtNul, hx] at hb
    · simp only [truncAtNul, if_neg hx, List.mem_cons] at hb
      rcases hb with hb | hb
      · subst hb; exact hx
      · exact ih b hb

theorem truncAtNul_eq_take : ∀ (l : List Nat), ∃ k, truncAtNul l = l.take k := by
  intro l
  induction l with
  | nil => exact ⟨0, rfl⟩
  | cons x xs ih =>
    by_cases hx : x = 0
    · exact ⟨0, by simp [truncAtNul, hx]⟩
    · obtain ⟨k, hk⟩ := ih
      exact ⟨k + 1, by simp [truncAtNul, hx, hk]⟩

theorem typeOff_read_some (record : List Nat) (h : nameOff ≤ record.length) :
    record[typeOff]? = some (record.getD typeOff 0) := by
  have ht : typeOff < record.length := by
    have : typeOff < nameOff := by decide
    omega
  rw [List.getElem?_eq_getElem ht]
  rw [List.getD_eq_getElem?_getD, List.getElem?_eq_getElem ht, Option.getD_some]

/-- On a record long enough for all fixed-offset reads, the Go
per-record body computes exactly the reference decode followed by the
two filter rules. -/
theorem decodeRecord_of_le (record : List Nat) (h : nameOff ≤ record.length) :
    decodeRecord record =
      if readU64D record inoOff = 0 then RecStep.skip
      else if truncAtNul (record.drop nameOff) = [dotByte] ∨
          truncAtNul (record.drop nameOff) = [dotByte, dotByte] then RecStep.skip
      else RecStep.emit (specDecodeRecord record) := by
  have h8 : inoOff + 8 ≤ record.length := by
    have : inoOff + 8 ≤ nameOff := by decide
    omega
  unfold decodeRecord
  rw [readU64?, if_pos h8, typeOff_read_some record h]
  rfl

theorem decodeRecord_emit_name (record : List Nat) (e : DirentInfo)
    (h : decodeRecord record = RecStep.emit e) :
    e.name = truncAtNul (record.drop nameOff) := by
  unfold decodeRecord at h
  split at h
  · exact absurd h (by simp)
  · split at h
    · exact absurd h (by simp)
    · split at h
      · exact absurd h (by simp)
      · split at h
        · exact absurd h (by simp)
        · injection h with h2
          subst h2
          rfl

theorem decodeRecord_emit_le (record : List Nat) (e : DirentInfo)
    (h : decodeRecord record = RecStep.emit e) : nameOff ≤ record.length := by
  unfold decodeRecord at h
  split at h
  · exact absurd h (by simp)
  · split at h
    · exact absurd h (by simp)
    · split at h
      · exact absurd h (by simp)
      · rename_i d htp
        have ht : typeOff < record.length := by
          by_contra hc
          rw [List.getElem?_eq_none (by omega)] at htp
          exact absurd htp (by simp)
        have hn : typeOff + 1 = nameOff := by decide
        omega

/-! ### Decoder versus reference decode -/

theorem survivesFilter_iff (e : DirentInfo) :
    survivesFilter e = true ↔
      e.ino ≠ 0 ∧ e.name ≠ [dotByte] ∧ e.name ≠ [dotByte, dotByte] := by
  simp [survivesFilter, and_assoc]

/-- Core equality: on a well-formed segment the Go scan returns, without
fault, exactly the reference decode of the segment filtered by the two
drop rules, in scan order. -/
theorem direntsLoop_eq_filter :
    ∀ (fuel : Nat) (buf : List Nat), wfLoop fuel buf = true →
      direntsLoop fuel buf = ((specRefLoop fuel buf).filter survivesFilter, true) := by
  intro fuel
  induction fuel with
  | zero => intro buf _; rfl
  | succ f ih =>
    intro buf hwf
    by_cases h1 : buf.length < reclenOff + reclenSize
    · simp [direntsLoop, specRefLoop, h1]
    · by_cases h2 : readU16 buf reclenOff = 0 ∨ buf.length < readU16 buf reclenOff
      · simp [direntsLoop, specRefLoop, h1, h2]
      · have hwf2 : (decide (nameOff ≤ readU16 buf reclenOff) &&
            wfLoop f (buf.drop (readU16 buf reclenOff))) = true := by
          have := hwf
          rw [wfLoop, if_neg h1, if_neg h2] at this
          exact this
        rw [Bool.and_eq_true, decide_eq_true_eq] at hwf2
        obtain ⟨hlen, hrest⟩ := hwf2
        have hle : readU16 buf reclenOff ≤ buf.length := by
          rcases Nat.lt_or_ge buf.length (readU16 buf reclenOff) with hc | hc
          · exact absurd (Or.inr hc) h2
          · exact hc
        have hrec_len : (buf.take (readU16 buf reclenOff)).length = readU16 buf reclenOff := by
          rw [List.length_take]
          omega
        have hd := decodeRecord_of_le (buf.take (readU16 buf reclenOff))
          (by rw [hrec_len]; exact hlen)
        rw [direntsLoop, if_neg h1, if_neg h2, specRefLoop, if_neg h1, if_neg h2, hd]
        by_cases hino : readU64D (buf.take (readU16 buf reclenOff)) inoOff = 0
        · have hsf : survivesFilter (specDecodeRecord (buf.take (readU16 buf reclenOff))) = false := by
            simp [survivesFilter, specDecodeRecord, hino]
          rw [if_pos hino, ih _ hrest, List.filter_cons, hsf]
          simp
        · by_cases hdot : truncAtNul ((buf.take (readU16 buf reclenOff)).drop nameOff) = [dotByte] ∨
              truncAtNul ((buf.take (readU16 buf reclenOff)).drop nameOff) = [dotByte, dotByte]
          · have hsf : survivesFilter (specDecodeRecord (buf.take (readU16 buf reclenOff))) = false := by
              rcases hdot with hdot | hdot <;>
                simp [survivesFilter, specDecodeRecord, hdot]
            rw [if_neg hino, if_pos hdot, ih _ hrest, List.filter_cons, hsf]
            simp
          · have hsf : survivesFilter (specDecodeRecord (buf.take (readU16 buf reclenOff))) = true := by
              push_neg at hdot
              simp [survivesFilter, specDecodeRecord, hino, hdot.1, hdot.2]
            rw [if_neg hino, if_neg hdot, ih _ hrest, List.filter_cons, hsf]
            simp

/-- Whole-segment instance of `direntsLoop_eq_filter`. -/
theorem direntsInBuf_eq_filter (buf : List Nat) (h : wfSegment buf = true) :
    direntsInBuf buf = ((specRefDecode buf).filter survivesFilter, true) :=
  direntsLoop_eq_filter buf.length buf h

/-! ### Resource bound and name-view lemmas -/

theorem direntsLoop_count :
    ∀ (fuel : Nat) (buf : List Nat),
      nameOff * (direntsLoop fuel buf).1.length ≤ buf.length := by
  intro fuel
  induction fuel with
  | zero => intro buf; simp [direntsLoop]
  | succ f ih =>
    intro buf
    by_cases h1 : buf.length < reclenOff + reclenSize
    · simp [direntsLoop, h1]
    · by_cases h2 : readU16 buf reclenOff = 0 ∨ buf.length < readU16 buf reclenOff
      · simp [direntsLoop, h1, h2]
      · rw [direntsLoop, if_neg h1, if_neg h2]
        rcases hdec : decodeRecord (buf.take (readU16 buf reclenOff)) with _ | _ | e
        · simp [hdec]
        · have := ih (buf.drop (readU16 buf reclenOff))
          rw [List.length_drop] at this
          simp only [hdec]
          omega
        · have h19 : nameOff ≤ (buf.take (readU16 buf reclenOff)).length :=
            decodeRecord_emit_le _ e hdec
          rw [List.length_take] at h19
          have hrec : nameOff ≤ readU16 buf reclenOff := by omega
          have := ih (buf.drop (readU16 buf reclenOff))
          rw [List.length_drop] at this
          simp only [hdec, List.length_cons]
          have h0 : ¬(readU16 buf reclenOff = 0 ∨ buf.length < readU16 buf reclenOff) := h2
          push_neg at h0
          rw [Nat.mul_add, Nat.mul_one]
          omega

theorem direntsLoop_names :
    ∀ (fuel : Nat) (buf : List Nat) (e : DirentInfo), e ∈ (direntsLoop fuel buf).1 →
      (∃ i j, e.name = (buf.drop i).take j) ∧ ∀ b ∈ e.name, b ≠ 0 := by
  intro fuel
  induction fuel with
  | zero => intro buf e he; simp [direntsLoop] at he
  | succ f ih =>
    intro buf e he
    by_cases h1 : buf.length < reclenOff + reclenSize
    · simp [direntsLoop, h1] at he
    · by_cases h2 : readU16 buf reclenOff = 0 ∨ buf.length < readU16 buf reclenOff
      · simp [direntsLoop, h1, h2] at he
      · rw [direntsLoop, if_neg h1, if_neg h2] at he
        rcases hdec : decodeRecord (buf.take (readU16 buf reclenOff)) with _ | _ | e0
        · rw [hdec] at he; simp at he
        · rw [hdec] at he
          obtain ⟨⟨i, j, hij⟩, hnul⟩ := ih (buf.drop (readU16 buf reclenOff)) e he
          refine ⟨⟨readU16 buf reclenOff + i, j, ?_⟩, hnul⟩
          rw [hij, List.drop_drop]
        · rw [hdec] at he
          simp only [List.mem_cons] at he
          rcases he with he | he
          · rw [he]
            have hname := decodeRecord_emit_name _ e0 hdec
            constructor
            · obtain ⟨k, hk⟩ := truncAtNul_eq_take ((buf.take (readU16 buf reclenOff)).drop nameOff)
              refine ⟨nameOff, min k (readU16 buf reclenOff - nameOff), ?_⟩
              rw [hname, hk, List.drop_take, List.take_take]
            · intro b hb
              rw [hname] at hb
              exact truncAtNul_no_nul _ b hb
          · obtain ⟨⟨i, j, hij⟩, hnul⟩ := ih (buf.drop (readU16 buf reclenOff)) e he
            refine ⟨⟨readU16 buf reclenOff + i, j, ?_⟩, hnul⟩
            rw [hij, List.drop_drop]

/-- Stop case of the scan loop: a fragment shorter than the
record-length field is discarded with no entries, for any fuel. -/
theorem direntsLoop_short (fuel : Nat) (buf : List Nat)
    (h : buf.length < reclenOff + reclenSize) : direntsLoop fuel buf = ([], true) := by
  cases fuel with
  | zero => rfl
  | succ f => rw [direntsLoop, if_pos h]

/-- Adequacy of the fuel: any fuel at least `buf.length` computes the
same result, so the wrapper `direntsInBuf` is the unbounded Go loop. -/
theorem direntsLoop_congr :
    ∀ (f1 f2 : Nat) (buf : List Nat), buf.length ≤ f1 → buf.length ≤ f2 →
      direntsLoop f1 buf = direntsLoop f2 buf := by
  intro f1
  induction f1 with
  | zero =>
    intro f2 buf hb1 _
    have h1 : buf.length < reclenOff + reclenSize := by
      have : reclenOff + reclenSize = 18 := by decide
      omega
    rw [direntsLoop_short 0 buf h1, direntsLoop_short f2 buf h1]
  | succ f ihf =>
    intro f2 buf hb1 hb2
    cases f2 with
    | zero =>
      have h1 : buf.length < reclenOff + reclenSize := by
        have : reclenOff + reclenSize = 18 := by decide
        omega
      rw [direntsLoop_short (f + 1) buf h1, direntsLoop_short 0 buf h1]
    | succ g =>
      by_cases h1 : buf.length < reclenOff + reclenSize
      · rw [direntsLoop, if_pos h1, direntsLoop, if_pos h1]
      · by_cases h2 : readU16 buf reclenOff = 0 ∨ buf.length < readU16 buf reclenOff
        · rw [direntsLoop, if_neg h1, if_pos h2, direntsLoop, if_neg h1, if_pos h2]
        · have h0 : ¬(readU16 buf reclenOff = 0 ∨ buf.length < readU16 buf reclenOff) := h2
          push_neg at h0
          have hrest : (buf.drop (readU16 buf reclenOff)).length ≤ f := by
            rw [List.length_drop]
            omega
          have hrest2 : (buf.drop (readU16 buf reclenOff)).length ≤ g := by
            rw [List.length_drop]
            omega
          rw [direntsLoop, if_neg h1, if_neg h2, direntsLoop, if_neg h1, if_neg h2,
            ihf g _ hrest hrest2]

/-! ### Driver lemmas -/

theorem driveEntries_none :
    ∀ (es : List DirentInfo), driveEntries es none = (es.map Event.entry, none, true) := by
  intro es
  induction es with
  | nil => rfl
  | cons e es ih => simp [driveEntries, ih]

theorem driveEntries_deliver :
    ∀ (es : List DirentInfo) (k : Nat), 1 ≤ k → k ≤ es.length →
      driveEntries es (some k) = ((es.take k).map Event.entry, some 0, false) := by
  intro es
  induction es with
  | nil => intro k h1 h2; simp at h2; omega
  | cons e es ih =>
    intro k h1 h2
    match k with
    | 0 => omega
    | 1 => simp [driveEntries]
    | b + 2 =>
      have hb : b + 1 ≤ es.length := by simpa using h2
      rw [driveEntries, ih (b + 1) (by omega) hb]
      simp

theorem driveEntries_exhaust :
    ∀ (es : List DirentInfo) (k : Nat), es.length < k →
      driveEntries es (some k) = (es.map Event.entry, some (k - es.length), true) := by
  intro es
  induction es with
  | nil => intro k _; simp [driveEntries]
  | cons e es ih =>
    intro k hk
    match k with
    | 0 => omega
    | 1 => simp at hk
    | b + 2 =>
      have hb : es.length < b + 1 := by simpa using hk
      rw [driveEntries, ih (b + 1) hb]
      simp

/-- Driving one good mid-stream segment with a consumer that never
stops: its entries are delivered and the driver performs one read plus
whatever the rest of the stream needs. -/
theorem Dirents_cons_good (r : ReadResult) (rs : List ReadResult)
    (h : goodSeg r = true) :
    Dirents (r :: rs) none =
      ((segEntries r).map Event.entry ++ (Dirents rs none).1, 1 + (Dirents rs none).2) := by
  cases r with
  | fail e => simp [goodSeg] at h
  | ok c =>
    cases c with
    | nil => simp [goodSeg] at h
    | cons b bs =>
      have hok : (direntsInBuf (b :: bs)).2 = true := by
        simpa [goodSeg] using h
      rw [Dirents, if_neg (by simp), driveEntries_none]
      simp [hok, segEntries]

/-! ### Concrete two-record segment used by witnesses -/

/-- Segment holding a dot-named record followed by a regular record. -/
def bufTwoRecs : List Nat := bufDotName ++ bufOneFile

example : wfSegment bufTwoRecs = true := by decide
example : direntsInBuf bufTwoRecs = ([⟨7, 8, [102]⟩], true) := by decide

/-! ### Claim theorems -/

/-- C1 (counterexample): the output of `direntsInBuf` does not equal
the bare reference decode: on a segment holding one fully well-formed
record named `"."`, the reference decode holds that record while
`direntsInBuf` yields nothing. -/
theorem c1_counterexample :
    (direntsInBuf bufDotName).1 ≠ specRefDecode bufDotName := by
  decide

/-- C1 (amended): for every filled buffer segment whose accepted records
are each at least `nameOff` bytes long, the sequence of entries produced
by `direntsInBuf` equals the reference decode — cursor from 0, each
record the next `reclen` bytes with `reclen` the fixed 2-byte
native-endian integer at its fixed offset, inode the fixed 8-byte
native-endian integer at the inode offset, type tag the fixed 1-byte
field passed through, name truncated at the first NUL — restricted to
the records surviving the `ino != 0` and non-`"."`/`".."` filter, in
scan order, and the scan returns without fault. -/
theorem c1_decode_eq_filtered_reference (buf : List Nat) (h : wfSegment buf = true) :
    direntsInBuf buf = ((specRefDecode buf).filter survivesFilter, true) :=
  direntsInBuf_eq_filter buf h

theorem c1_decode_eq_filtered_reference_witness :
    direntsInBuf bufTwoRecs = ((specRefDecode bufTwoRecs).filter survivesFilter, true) :=
  c1_decode_eq_filtered_reference bufTwoRecs (by decide)

/-- C2: on a well-formed segment, a decoded record is delivered by
`direntsInBuf` if and only if it is a record of the reference decode
whose inode is nonzero and whose name is neither `"."` nor `".."`; no
other record is excluded. -/
theorem c2_delivered_iff_survives (buf : List Nat) (h : wfSegment buf = true)
    (e : DirentInfo) :
    e ∈ (direntsInBuf buf).1 ↔
      e ∈ specRefDecode buf ∧ e.ino ≠ 0 ∧ e.name ≠ [dotByte] ∧
        e.name ≠ [dotByte, dotByte] := by
  rw [direntsInBuf_eq_filter buf h]
  simp only [List.mem_filter, survivesFilter_iff, and_assoc]

theorem c2_delivered_iff_survives_witness :
    (⟨7, 8, [102]⟩ : DirentInfo) ∈ (direntsInBuf bufTwoRecs).1 ↔
      (⟨7, 8, [102]⟩ : DirentInfo) ∈ specRefDecode bufTwoRecs ∧
        (⟨7, 8, [102]⟩ : DirentInfo).ino ≠ 0 ∧
        (⟨7, 8, [102]⟩ : DirentInfo).name ≠ [dotByte] ∧
        (⟨7, 8, [102]⟩ : DirentInfo).name ≠ [dotByte, dotByte] :=
  c2_delivered_iff_survives bufTwoRecs (by decide) ⟨7, 8, [102]⟩

/-- C3 (counterexample): a declared record length can be positive and
within the filled segment and still fault: on `bufShortRec` the scanned
record length is 18, satisfies `0 < 18 ≤ 18 = length`, yet decoding the
record faults (the type-tag read at offset 18 is out of bounds), so
decoding does not perform a bounds check before every field read. -/
theorem c3_counterexample :
    readU16 bufShortRec reclenOff = 18 ∧
      0 < readU16 bufShortRec reclenOff ∧
      readU16 bufShortRec reclenOff ≤ bufShortRec.length ∧
      (direntsInBuf bufShortRec).2 = false := by
  decide

/-- C3 (amended): decoding never faults provided every accepted record
is at least `nameOff` bytes long (the smallest length making every
fixed-offset field read in bounds); for shorter accepted records the
decoder can read out of bounds. -/
theorem c3_no_fault_on_wf (buf : List Nat) (h : wfSegment buf = true) :
    (direntsInBuf buf).2 = true := by
  rw [direntsInBuf_eq_filter buf h]

theorem c3_no_fault_on_wf_witness : (direntsInBuf bufOneFile).2 = true :=
  c3_no_fault_on_wf bufOneFile (by decide)

/-- C4: when the scanned record-length field is 0 or exceeds the bytes
remaining from the cursor, decoding of the segment stops immediately and
silently — no entry, no error, no fault — and the driver treats such a
segment as exhausted and proceeds to the next read instead of failing. -/
theorem c4_truncation_stops_silently (buf : List Nat)
    (h1 : reclenOff + reclenSize ≤ buf.length)
    (h2 : readU16 buf reclenOff = 0 ∨ buf.length < readU16 buf reclenOff) :
    direntsInBuf buf = ([], true) ∧
      ∀ rs : List ReadResult, Dirents (ReadResult.ok buf :: rs) none =
        ((Dirents rs none).1, 1 + (Dirents rs none).2) := by
  have hstop : direntsInBuf buf = ([], true) := by
    obtain ⟨f, hf⟩ : ∃ f, buf.length = f + 1 := by
      have h18 : reclenOff + reclenSize = 18 := by decide
      refine ⟨buf.length - 1, ?_⟩
      omega
    rw [direntsInBuf, hf, direntsLoop, if_neg (by omega), if_pos h2]
  have h18 : reclenOff + reclenSize = 18 := by decide
  refine ⟨hstop, fun rs => ?_⟩
  rw [Dirents, if_neg (by omega), hstop]
  simp [driveEntries]

theorem c4_truncation_stops_silently_witness :
    direntsInBuf bufZeroReclen = ([], true) ∧
      Dirents [ReadResult.ok bufZeroReclen] none =
        ((Dirents ([] : List ReadResult) none).1,
          1 + (Dirents ([] : List ReadResult) none).2) := by
  have h := c4_truncation_stops_silently bufZeroReclen (by decide) (by decide)
  exact ⟨h.1, h.2 []⟩

/-- C7: the decoder asserts the fixed field widths (inode 8 bytes,
record length 2 bytes, type tag 1 byte) before any record is decoded; on
any mismatch it refuses to decode anything (Go panics), and with the
host's actual widths it proceeds to the scan. -/
theorem c7_layout_assertion (inoSz reclenSz typeSz : Nat) (buf : List Nat)
    (h : inoSz ≠ 8 ∨ reclenSz ≠ 2 ∨ typeSz ≠ 1) :
    direntsInBufChecked inoSz reclenSz typeSz buf = none ∧
      direntsInBufChecked inoSize reclenSize typeSize buf = some (direntsInBuf buf) := by
  constructor
  · unfold direntsInBufChecked
    split_ifs with hA hB hC
    · rcases h with h | h | h
      · exact absurd hA h
      · exact absurd hB h
      · exact absurd hC h
    · rfl
    · rfl
    · rfl
  · simp [direntsInBufChecked, inoSize, reclenSize, typeSize]

theorem c7_layout_assertion_witness :
    direntsInBufChecked 4 2 1 bufOneFile = none ∧
      direntsInBufChecked inoSize reclenSize typeSize bufOneFile =
        some (direntsInBuf bufOneFile) :=
  c7_layout_assertion 4 2 1 bufOneFile (by decide)

/-- C8: the scan loop terminates: every accepted record has a nonzero
length, so the remaining segment strictly shrinks on each iteration, and
the number of entries a segment can yield is bounded by its size (each
yielded record occupies at least `nameOff` bytes). -/
theorem c8_scan_strictly_shrinks (buf : List Nat)
    (h1 : reclenOff + reclenSize ≤ buf.length)
    (h2 : readU16 buf reclenOff ≠ 0)
    (h3 : readU16 buf reclenOff ≤ buf.length) :
    (buf.drop (readU16 buf reclenOff)).length < buf.length ∧
      nameOff * (direntsInBuf buf).1.length ≤ buf.length := by
  constructor
  · rw [List.length_drop]
    have h18 : reclenOff + reclenSize = 18 := by decide
    omega
  · exact direntsLoop_count buf.length buf

theorem c8_scan_strictly_shrinks_witness :
    (bufOneFile.drop (readU16 bufOneFile reclenOff)).length < bufOneFile.length ∧
      nameOff * (direntsInBuf bufOneFile).1.length ≤ bufOneFile.length :=
  c8_scan_strictly_shrinks bufOneFile (by decide) (by decide) (by decide)

/-- C10: every entry `direntsInBuf` emits has a name that is a
contiguous subslice of the caller-supplied buffer (a zero-copy view)
holding no NUL byte, and a trailing fragment shorter than the bytes
needed for the record-length field (its offset plus its 2-byte width) is
silently discarded with no read attempted. -/
theorem c10_name_views (buf : List Nat) :
    (∀ e ∈ (direntsInBuf buf).1,
        (∃ i j, e.name = (buf.drop i).take j) ∧ ∀ b ∈ e.name, b ≠ 0) ∧
      (buf.length < reclenOff + reclenSize → direntsInBuf buf = ([], true)) := by
  constructor
  · intro e he
    exact direntsLoop_names buf.length buf e he
  · intro h
    exact direntsLoop_short buf.length buf h

theorem c10_name_views_witness :
    ((∃ i j, (⟨7, 8, [102]⟩ : DirentInfo).name = (bufOneFile.drop i).take j) ∧
        ∀ b ∈ (⟨7, 8, [102]⟩ : DirentInfo).name, b ≠ 0) ∧
      direntsInBuf [1, 2, 3] = ([], true) := by
  refine ⟨(c10_name_views bufOneFile).1 ⟨7, 8, [102]⟩ (by decide), ?_⟩
  exact (c10_name_views [1, 2, 3]).2 (by decide)

/-- C5: against a consumer that keeps pulling, after any run of good
segments the driver ends the sequence cleanly on a read returning 0
bytes (no error element, and no read beyond that one), and on a read
error it yields that error exactly once as the final element and issues
no further reads. -/
theorem c5_terminal_read_behavior (pre rs1 rs2 : List ReadResult) (e : Nat)
    (h : ∀ r ∈ pre, goodSeg r = true) :
    Dirents (pre ++ ReadResult.ok [] :: rs1) none = (segEvents pre, pre.length + 1) ∧
      Dirents (pre ++ ReadResult.fail e :: rs2) none =
        (segEvents pre ++ [Event.failure e], pre.length + 1) := by
  induction pre with
  | nil =>
    constructor
    · rw [List.nil_append, Dirents]
      simp [segEvents, allEntries]
    · rw [List.nil_append]
      rfl
  | cons r pre ih =>
    have hr : goodSeg r = true := h r (by simp)
    obtain ⟨ih1, ih2⟩ := ih (fun x hx => h x (by simp [hx]))
    constructor
    · rw [List.cons_append, Dirents_cons_good r _ hr, ih1, Prod.mk.injEq]
      constructor
      · simp [segEvents, allEntries]
      · simp
        omega
    · rw [List.cons_append, Dirents_cons_good r _ hr, ih2, Prod.mk.injEq]
      constructor
      · simp [segEvents, allEntries]
      · simp
        omega

theorem c5_terminal_read_behavior_witness :
    Dirents ([ReadResult.ok bufOneFile] ++ ReadResult.ok [] :: []) none =
        (segEvents [ReadResult.ok bufOneFile], [ReadResult.ok bufOneFile].length + 1) ∧
      Dirents ([ReadResult.ok bufOneFile] ++ ReadResult.fail 5 :: []) none =
        (segEvents [ReadResult.ok bufOneFile] ++ [Event.failure 5],
          [ReadResult.ok bufOneFile].length + 1) :=
  c5_terminal_read_behavior [ReadResult.ok bufOneFile] [] [] 5 (by decide)

/-- C6: a consumer that stops pulling after `k` entries causes exactly
`readsNeeded k segs` reads — the number needed to produce those `k`
entries — and receives exactly the first `k` entries of the stream; no
read is issued after the consumer stops. -/
theorem c6_reads_exact (segs : List ReadResult) :
    ∀ k : Nat, 1 ≤ k → (∀ r ∈ segs, goodSeg r = true) →
      k ≤ (allEntries segs).length →
      Dirents segs (some k) =
        (((allEntries segs).take k).map Event.entry, readsNeeded k segs) := by
  induction segs with
  | nil =>
    intro k h1 _ h3
    simp [allEntries] at h3
    omega
  | cons r rs ih =>
    intro k h1 h2 h3
    have hr : goodSeg r = true := h2 r (by simp)
    cases r with
    | fail e2 => simp [goodSeg] at hr
    | ok c =>
      cases c with
      | nil => simp [goodSeg] at hr
      | cons b bs =>
        have hok : (direntsInBuf (b :: bs)).2 = true := by
          simpa [goodSeg] using hr
        have hseg : segEntries (ReadResult.ok (b :: bs)) = (direntsInBuf (b :: bs)).1 := rfl
        have hall : allEntries (ReadResult.ok (b :: bs) :: rs) =
            (direntsInBuf (b :: bs)).1 ++ allEntries rs := by
          rw [allEntries, hseg]
        by_cases hk : k ≤ (direntsInBuf (b :: bs)).1.length
        · rw [Dirents, if_neg (by simp), driveEntries_deliver _ k h1 hk,
            if_neg (by simp), readsNeeded, if_pos (by simpa [segEntries] using hk),
            Prod.mk.injEq]
          constructor
          · rw [hall, List.take_append_eq_append_take, Nat.sub_eq_zero_of_le hk]
            simp
          · rfl
        · push_neg at hk
          have h3r : k - (direntsInBuf (b :: bs)).1.length ≤ (allEntries rs).length := by
            have hlen : (allEntries (ReadResult.ok (b :: bs) :: rs)).length =
                (direntsInBuf (b :: bs)).1.length + (allEntries rs).length := by
              rw [hall, List.length_append]
            omega
          rw [Dirents, if_neg (by simp), driveEntries_exhaust _ k hk,
            if_pos (by simp [hok]),
            ih (k - (direntsInBuf (b :: bs)).1.length) (by omega)
              (fun x hx => h2 x (by simp [hx])) h3r,
            readsNeeded, if_neg (by simp [segEntries]; omega), Prod.mk.injEq]
          have htk : List.take k (direntsInBuf (b :: bs)).1 = (direntsInBuf (b :: bs)).1 :=
            List.take_of_length_le (by omega)
          constructor
          · rw [hall, List.take_append_eq_append_take, htk, List.map_append]
          · simp [segEntries]

theorem c6_reads_exact_witness :
    Dirents [ReadResult.ok bufOneFile, ReadResult.ok bufOneFile] (some 1) =
      (((allEntries [ReadResult.ok bufOneFile, ReadResult.ok bufOneFile]).take 1).map
          Event.entry,
        readsNeeded 1 [ReadResult.ok bufOneFile, ReadResult.ok bufOneFile]) :=
  c6_reads_exact [ReadResult.ok bufOneFile, ReadResult.ok bufOneFile] 1 (by decide)
    (by decide) (by decide)

/-- C9 (counterexample): the two revisions of `NewReadDirIter` disagree
for `n = 0` on a file whose first `ReadDir(0)` call reports `io.EOF`:
the current revision (src/iter.go) yields the EOF as an error element,
the older one (src/unnamed/part_002) suppresses EOF and yields
nothing. -/
theorem c9_counterexample :
    NewReadDirIter 0 [([], some eofErr)] ≠ NewReadDirIterOld 0 [([], some eofErr)] := by
  decide

/-- C9 (amended): for every `n >= 1` the two revisions run the same
read/yield loop and produce identical (entry, error) sequences on every
sequence of `ReadDir` responses; for `n <= 0` they can differ (the
current revision issues a single `ReadDir` call and surfaces any error
including EOF, the older one suppresses EOF and loops until EOF or, for
`n == 0` only, an empty batch). -/
theorem c9_equal_for_positive_n (n : Int) (h : 1 ≤ n)
    (rs : List (List Nat × Option Nat)) :
    NewReadDirIter n rs = NewReadDirIterOld n rs := by
  have hn0 : ¬n ≤ 0 := by omega
  rw [NewReadDirIter.eq_def, if_neg hn0]
  induction rs with
  | nil => rfl
  | cons p rest ih =>
    obtain ⟨de, err⟩ := p
    cases err with
    | none =>
      have hne : ¬(n = 0 ∧ de = []) := by
        rintro ⟨h0, _⟩
        omega
      rw [readDirLoop, NewReadDirIterOld, if_neg hne, ih]
    | some e2 => rfl

theorem c9_equal_for_positive_n_witness :
    NewReadDirIter 1 [([3], none), ([], some eofErr)] =
      NewReadDirIterOld 1 [([3], none), ([], some eofErr)] :=
  c9_equal_for_positive_n 1 (by decide) [([3], none), ([], some eofErr)]
